import Mathlib

/-!
Shallow embedding of the PCM conversion core of the `cpal` repository
(`src/conversions.rs` and `src/samples_formats.rs`), together with proofs
about the claims of its specification.

Modelling conventions:
- Buffers are `List` values; samples of the integer representations are
  `Nat` (u16, u32/U24) or `Int` (i16); f32 samples are modelled as exact
  rationals `ℚ` (the statements that exercise float code are staged at
  inputs where 32-bit float arithmetic is exact).
- A Rust operation that can panic (slice indexing out of bounds,
  `assert!`, `unimplemented!`) is modelled with `Option`: `none` means the
  call aborts fatally and returns no result.
- Wrapping of machine integers is written explicitly: `% 65536` for u16,
  `% 4294967296` for u32, and a shifted remainder for i16.  (Release-mode
  wrapping semantics; the overflow sites are discussed where relevant.)
-/

namespace Cpal

/-- Rust slice indexing `l[n]`: `some` element if in bounds, `none` for the
out-of-bounds panic. -/
def idx? {α : Type} : List α → Nat → Option α
  | [], _ => none
  | x :: _, 0 => some x
  | _ :: xs, n + 1 => idx? xs n

/-- Models the loop `for i in 0..n { result.push(element[i]) }` over a Rust
slice: the first `n` elements if the slice is long enough, `none` (panic)
otherwise. -/
def takeExact {α : Type} : Nat → List α → Option (List α)
  | 0, _ => some []
  | _ + 1, [] => none
  | n + 1, x :: xs =>
    match takeExact n xs with
    | some ys => some (x :: ys)
    | none => none

/-- Option-valued map: `some` of the list of results if every element maps to
`some`, `none` as soon as one fails (a loop whose body can panic). -/
def optMap {α β : Type} (f : α → Option β) : List α → Option (List β)
  | [] => some []
  | x :: xs =>
    match f x, optMap f xs with
    | some y, some ys => some (y :: ys)
    | _, _ => none

/-- Fuel-driven worker for `chunks`; the fuel makes the recursion structural
so that concrete instances evaluate by `rfl`/`decide`. -/
def chunksF {α : Type} : Nat → Nat → List α → List (List α)
  | _, _, [] => []
  | 0, _, l => [l]
  | fuel + 1, n, l => l.take n :: chunksF fuel n (l.drop n)

/-- Rust's `slice::chunks(n)`: consecutive pieces of length `n`, the last one
possibly shorter.  Rust panics when `n = 0`; call sites below guard that case
explicitly, and `chunks 0 l` itself is the (unused) value `[]`. -/
def chunks {α : Type} (n : Nat) (l : List α) : List (List α) :=
  if n = 0 then [] else chunksF l.length n l

theorem chunksF_congr {α : Type} {n : Nat} (hn : n ≠ 0) :
    ∀ (f₁ : Nat) (f₂ : Nat) (l : List α), l.length ≤ f₁ → l.length ≤ f₂ →
      chunksF f₁ n l = chunksF f₂ n l := by
  intro f₁
  induction f₁ with
  | zero =>
    intro f₂ l h₁ h₂
    have hl : l = [] := List.eq_nil_of_length_eq_zero (Nat.le_zero.mp h₁)
    subst hl
    cases f₂ <;> rfl
  | succ f₁ ih =>
    intro f₂ l h₁ h₂
    cases l with
    | nil => cases f₂ <;> rfl
    | cons x xs =>
      cases f₂ with
      | zero => simp at h₂
      | succ f₂ =>
        show (x :: xs).take n :: chunksF f₁ n ((x :: xs).drop n)
            = (x :: xs).take n :: chunksF f₂ n ((x :: xs).drop n)
        have hd : ((x :: xs).drop n).length ≤ f₁ := by
          simp only [List.length_drop, List.length_cons] at *
          omega
        have hd₂ : ((x :: xs).drop n).length ≤ f₂ := by
          simp only [List.length_drop, List.length_cons] at *
          omega
        rw [ih f₂ ((x :: xs).drop n) hd hd₂]

@[simp] theorem chunks_nil {α : Type} (n : Nat) : chunks n ([] : List α) = [] := by
  cases n <;> rfl

theorem chunks_cons {α : Type} {n : Nat} (hn : n ≠ 0) (l : List α) (hl : l ≠ []) :
    chunks n l = l.take n :: chunks n (l.drop n) := by
  cases l with
  | nil => exact absurd rfl hl
  | cons x xs =>
    show chunks n (x :: xs) = _
    unfold chunks
    rw [if_neg hn, if_neg hn]
    show (x :: xs).take n :: chunksF xs.length n ((x :: xs).drop n)
        = (x :: xs).take n :: chunksF ((x :: xs).drop n).length n ((x :: xs).drop n)
    have hlen : ((x :: xs).drop n).length ≤ xs.length := by
      simp only [List.length_drop, List.length_cons]
      omega
    rw [chunksF_congr hn xs.length ((x :: xs).drop n).length ((x :: xs).drop n) hlen le_rfl]

theorem chunks_count_mul {α : Type} {n : Nat} (hn : n ≠ 0) (l : List α)
    (hd : n ∣ l.length) : (chunks n l).length * n = l.length := by
  by_cases hl : l = []
  · subst hl; simp
  · rw [chunks_cons hn l hl]
    have hpos : 0 < l.length := List.length_pos.mpr hl
    have hle : n ≤ l.length := Nat.le_of_dvd hpos hd
    have hd' : n ∣ (l.drop n).length := by
      simp only [List.length_drop]
      exact Nat.dvd_sub' hd (dvd_refl n)
    have hrec := chunks_count_mul hn (l.drop n) hd'
    simp only [List.length_drop] at hrec
    rw [List.length_cons, Nat.succ_mul, hrec]
    omega
termination_by l.length
decreasing_by
  simp only [List.length_drop]
  have : l.length ≠ 0 := fun h => hl (List.eq_nil_of_length_eq_zero h)
  omega

theorem chunks_count {α : Type} {n : Nat} (hn : n ≠ 0) (l : List α)
    (hd : n ∣ l.length) : (chunks n l).length = l.length / n := by
  rw [← chunks_count_mul hn l hd, Nat.mul_div_cancel _ (Nat.pos_of_ne_zero hn)]

theorem chunks_ne_nil {α : Type} {n : Nat} {l c : List α} (hn : n ≠ 0)
    (hc : c ∈ chunks n l) : c ≠ [] := by
  by_cases hl : l = []
  · subst hl; simp at hc
  · rw [chunks_cons hn l hl] at hc
    rcases List.mem_cons.mp hc with h | h
    · subst h
      cases l with
      | nil => exact absurd rfl hl
      | cons x xs =>
        cases n with
        | zero => exact absurd rfl hn
        | succ n => simp
    · exact chunks_ne_nil hn h
termination_by l.length
decreasing_by
  simp only [List.length_drop]
  have : l.length ≠ 0 := fun h => hl (List.eq_nil_of_length_eq_zero h)
  omega

theorem chunks_subset {α : Type} {n : Nat} {l c : List α} (hn : n ≠ 0)
    (hc : c ∈ chunks n l) : ∀ x ∈ c, x ∈ l := by
  by_cases hl : l = []
  · subst hl; simp at hc
  · rw [chunks_cons hn l hl] at hc
    rcases List.mem_cons.mp hc with h | h
    · subst h; exact fun x hx => List.take_subset n l hx
    · intro x hx
      exact List.drop_subset n l (chunks_subset hn h x hx)
termination_by l.length
decreasing_by
  simp only [List.length_drop]
  have : l.length ≠ 0 := fun h => hl (List.eq_nil_of_length_eq_zero h)
  omega

theorem chunks_full {α : Type} {n : Nat} {l c : List α} (hn : n ≠ 0)
    (hd : n ∣ l.length) (hc : c ∈ chunks n l) : c.length = n := by
  by_cases hl : l = []
  · subst hl; simp at hc
  · rw [chunks_cons hn l hl] at hc
    have hlen : n ≤ l.length := Nat.le_of_dvd (by
      have : l.length ≠ 0 := fun h => hl (List.eq_nil_of_length_eq_zero h)
      omega) hd
    rcases List.mem_cons.mp hc with h | h
    · subst h; simp only [List.length_take]; omega
    · exact chunks_full hn (by
        simp only [List.length_drop]
        exact Nat.dvd_sub' hd (dvd_refl n)) h
termination_by l.length
decreasing_by
  simp only [List.length_drop]
  have : l.length ≠ 0 := fun h => hl (List.eq_nil_of_length_eq_zero h)
  omega

theorem chunks_dvd {α : Type} {m C : Nat} {l c : List α} (hm : m ≠ 0)
    (hC : C ∣ m) (hd : C ∣ l.length) (hc : c ∈ chunks m l) : C ∣ c.length := by
  by_cases hl : l = []
  · subst hl; simp at hc
  · rw [chunks_cons hm l hl] at hc
    rcases List.mem_cons.mp hc with h | h
    · subst h
      simp only [List.length_take]
      rcases Nat.le_total m l.length with hle | hle
      · rw [Nat.min_eq_left hle]; exact hC
      · rw [Nat.min_eq_right hle]; exact hd
    · exact chunks_dvd hm hC (by
        simp only [List.length_drop]
        exact Nat.dvd_sub' hd hC) h
termination_by l.length
decreasing_by
  simp only [List.length_drop]
  have : l.length ≠ 0 := fun h => hl (List.eq_nil_of_length_eq_zero h)
  omega

theorem chunks_take_join {α : Type} {C : Nat} (hC : C ≠ 0) :
    ∀ (k : Nat) (l : List α), ((chunks C l).take k).flatten = l.take (C * k) := by
  intro k
  induction k with
  | zero => intro l; simp
  | succ k ih =>
    intro l
    by_cases hl : l = []
    · subst hl; simp
    · rw [chunks_cons hC l hl]
      rw [List.take_succ_cons, List.flatten_cons, ih (l.drop C)]
      rw [Nat.mul_succ, Nat.add_comm (C * k) C, List.take_add]

theorem chunks_drop {α : Type} {C : Nat} (hC : C ≠ 0) :
    ∀ (k : Nat) (l : List α), (chunks C l).drop k = chunks C (l.drop (C * k)) := by
  intro k
  induction k with
  | zero => intro l; simp
  | succ k ih =>
    intro l
    by_cases hl : l = []
    · subst hl; simp
    · rw [chunks_cons hC l hl]
      rw [List.drop_succ_cons, ih (l.drop C), List.drop_drop]
      rw [Nat.mul_succ, Nat.add_comm (C * k) C]

theorem chunks_mul {α : Type} {C k : Nat} (hC : C ≠ 0) (hk : k ≠ 0) (l : List α) :
    chunks (C * k) l = (chunks k (chunks C l)).map List.flatten := by
  by_cases hl : l = []
  · subst hl; simp
  · have hCk : C * k ≠ 0 := Nat.mul_ne_zero hC hk
    have hfl : chunks C l ≠ [] := by
      rw [chunks_cons hC l hl]; simp
    rw [chunks_cons hCk l hl, chunks_cons hk (chunks C l) hfl]
    rw [List.map_cons, chunks_take_join hC k l, chunks_drop hC k l]
    rw [chunks_mul hC hk (l.drop (C * k))]
termination_by l.length
decreasing_by
  simp only [List.length_drop]
  have h1 : l.length ≠ 0 := fun h => hl (List.eq_nil_of_length_eq_zero h)
  have h2 : C * k ≠ 0 := Nat.mul_ne_zero hC hk
  omega

/-! ### samples_formats.rs: the `Sample` impls

Integer samples: u16 and u32 values are `Nat` (with explicit wrap at
`2^16` / `2^32`), i16 values are `Int` in `[-32768, 32767]`.  f32 values are
exact rationals. -/

/-- Reinterpretation of an integer as u16 (`as u16`), i.e. the low 16 bits. -/
def u16wrap (x : Int) : Int := x % 65536

/-- Reinterpretation of an integer as i16 (`as i16` / two's-complement wrap of
i16 arithmetic). -/
def i16wrap (x : Int) : Int := (x + 32768) % 65536 - 32768

/-- Source: `impl Sample for u16`, `fn interpolate` — `(self + other) / 2` in
u16 arithmetic: the addition wraps at `2^16` (release mode; debug mode would
panic on overflow), the division truncates. -/
def interpolate_u16 (a b : Nat) : Nat := ((a + b) % 65536) / 2

/-- Source: `impl Sample for u32`, `fn interpolate` — `(self + other) / 2` in
u32 arithmetic, addition wrapping at `2^32`. -/
def interpolate_u32 (a b : Nat) : Nat := ((a + b) % 4294967296) / 2

/-- Source: `impl Sample for i16`, `fn interpolate` — `(self + other) / 2` in
i16 arithmetic: wrapping addition, division truncating toward zero. -/
def interpolate_i16 (a b : Int) : Int := Int.tdiv (i16wrap (a + b)) 2

/-- Source: `impl Sample for f32`, `fn interpolate` — `(self + other) / 2.0`
(exact-rational idealisation of f32). -/
def interpolate_f32 (a b : ℚ) : ℚ := (a + b) / 2

/-- Source: `impl Sample for i16`, `fn to_vec_u16`, per element:
`if value < 0 { (value + 32767 + 1) as u16 } else { (value as u16) + 32768 }`.
Every machine addition and cast is written with its wrap. -/
def i16_to_u16_val (x : Int) : Int :=
  if x < 0 then u16wrap (i16wrap (i16wrap (x + 32767) + 1))
  else u16wrap (u16wrap x + 32768)

/-- Source: `impl Sample for u16`, `fn to_vec_i16`, per element:
`if value >= 32768 { (value - 32768) as i16 } else { (value as i16) - 32767 - 1 }`.
The first branch subtracts in u16 and reinterprets; the second reinterprets
and subtracts in i16. -/
def u16_to_i16_val (v : Int) : Int :=
  if 32768 ≤ v then i16wrap (u16wrap (v - 32768))
  else i16wrap (i16wrap (i16wrap v - 32767) - 1)

/-- Source: `impl Sample for i16`, `fn to_vec_u16` (elementwise map). -/
def to_vec_u16_of_i16 (l : List Int) : List Int := l.map i16_to_u16_val

/-- Source: `impl Sample for u16`, `fn to_vec_i16` (elementwise map). -/
def to_vec_i16_of_u16 (l : List Int) : List Int := l.map u16_to_i16_val

/-- Round a rational toward zero (the rounding Rust uses when casting a float
to an integer type). -/
def ratTrunc (x : ℚ) : Int := if x < 0 then -(Int.floor (-x)) else Int.floor x

/-- Rust `as u32` on a float value: round toward zero, saturating to the
bounds `[0, 2^32 - 1]` (modern saturating float-cast semantics). -/
def u32cast (x : ℚ) : Nat := min (ratTrunc x).toNat 4294967295

/-- Source: `impl Sample for f32`, `fn to_vec_u24`, per element:
`if value >= 0.0 { (value * 8388607.0) as u32 + 0x800000 }
 else { (value * 8388608.0) as u32 + 0x800000 }`.
The cast to u32 happens before the offset is added; the final u32 addition
wraps at `2^32`.  Float arithmetic is idealised as exact rational arithmetic
(exact for the inputs at which the theorems below evaluate it). -/
def f32_to_u24_val (v : ℚ) : Nat :=
  if 0 ≤ v then (u32cast (v * 8388607) + 8388608) % 4294967296
  else (u32cast (v * 8388608) + 8388608) % 4294967296

/-- Source: `impl Sample for f32`, `fn to_vec_u24` (elementwise map). -/
def to_vec_u24_of_f32 (l : List ℚ) : List Nat := l.map f32_to_u24_val

/-- The claimed behaviour of `to_vec_u24` on f32, following the words of the
specification: `round-toward-zero(v * 32767.0)` for `v >= 0.0`, else
`round-toward-zero(v * 32768.0)` — the F32→I16 scaling — then add the zero
offset `0x800000`.  Spec-side definition, for comparison with the source. -/
def f32_to_u24_claimed (v : ℚ) : Int :=
  (if 0 ≤ v then ratTrunc (v * 32767) else ratTrunc (v * 32768)) + 8388608

/-! ### conversions.rs: `convert_samples_rate` and `convert_channels` -/

/-- The `from % to == 0` decimation loop of `convert_samples_rate`: for each
chunk, push the first `C` elements (slice indexing, so a chunk shorter than
`C` is a fatal out-of-bounds panic, modelled as `none`). -/
def decimateChunks {α : Type} (C : Nat) : List (List α) → Option (List α)
  | [] => some []
  | c :: rest =>
    match takeExact C c, decimateChunks C rest with
    | some f, some r => some (f ++ r)
    | _, _ => none

/-- The `to == from * 2` loop of `convert_samples_rate`: walk the chunks
keeping the previous one; with a previous chunk, first push
`prev.interpolate(curr)` over the zip of the two (the zip stops at the
shorter), then push the current chunk. -/
def doubleChunks {α : Type} (interp : α → α → α) :
    Option (List α) → List (List α) → List α
  | _, [] => []
  | none, c :: rest => c ++ doubleChunks interp (some c) rest
  | some p, c :: rest =>
    List.zipWith interp p c ++ c ++ doubleChunks interp (some c) rest

/-- The inner `while desired_time - push_time > 0` loop of the general
upsampling case: keep pushing the current chunk, advancing `push_time` by
`from`, until the gap closes.  Returns the pushed samples and the final
`push_time`.  The step is written `max fr 1` only to make termination
manifest; every call below has `fr ≥ 1`, where `max fr 1 = fr`. -/
def pushLoop {α : Type} (e : List α) (fr : Nat) (desired push : Int) :
    List α × Int :=
  if h : desired - push > 0 then
    let r := pushLoop e fr desired (push + (max fr 1 : Nat))
    (e ++ r.1, r.2)
  else ([], push)
termination_by (desired - push).toNat
decreasing_by omega

/-- The outer loop of the general upsampling case (`to > from`): per chunk,
push it, advance `desired_time` by `to` and `push_time` by `from`, then run
the while loop. -/
def upsample {α : Type} (fr toR : Nat) :
    List (List α) → Int → Int → List α
  | [], _, _ => []
  | e :: rest, desired, push =>
    let d := desired + (toR : Int)
    let r := pushLoop e fr d (push + (fr : Int))
    e ++ r.1 ++ upsample fr toR rest d r.2

/-- Source: `convert_samples_rate` (conversions.rs).  The three supported
cases in source order; the final `unimplemented!()` and the panics of
`chunks(0)` (when the computed chunk size is `0`) are `none`. -/
def convert_samples_rate {α : Type} (interp : α → α → α) (input : List α)
    (fr toR C : Nat) : Option (List α) :=
  if fr % toR = 0 then
    if C * (fr / toR) = 0 then none
    else decimateChunks C (chunks (C * (fr / toR)) input)
  else if toR = fr * 2 then
    if C = 0 then none
    else some (doubleChunks interp none (chunks C input))
  else if fr < toR then
    if C = 0 then none
    else some (upsample fr toR (chunks C input) 0 0)
  else none

/-- The per-frame body of `convert_channels`: copy the first `min(from, to)`
channels, and if `to > from` append `to - from` extra channels, extra `i`
reading the source frame at `i % element.len()`.  All reads are slice
indexing (`none` on out of bounds). -/
def channelsFrame {α : Type} (fr toR : Nat) (element : List α) :
    Option (List α) :=
  (takeExact (min fr toR) element).bind fun common =>
    if fr < toR then
      (optMap (fun i => idx? element (i % element.length))
          (List.range (toR - fr))).bind fun extra =>
        some (common ++ extra)
    else some common

/-- Source: `convert_channels` (conversions.rs).  The three `assert!`s are
the three guards (violation is `none`); then the buffer is processed frame by
frame. -/
def convert_channels {α : Type} (input : List α) (fr toR : Nat) :
    Option (List α) :=
  if fr = 0 then none
  else if toR = 0 then none
  else if input.length % fr ≠ 0 then none
  else (optMap (channelsFrame fr toR) (chunks fr input)).map List.flatten

/-! ### Support lemmas about the Option-valued loops -/

theorem takeExact_eq {α : Type} :
    ∀ (n : Nat) (l : List α), n ≤ l.length → takeExact n l = some (l.take n) := by
  intro n
  induction n with
  | zero => intro l _; simp [takeExact]
  | succ n ih =>
    intro l hl
    cases l with
    | nil => simp at hl
    | cons x xs =>
      simp only [List.length_cons, Nat.succ_le_succ_iff] at hl
      simp [takeExact, ih xs hl]

theorem takeExact_none {α : Type} :
    ∀ (n : Nat) (l : List α), l.length < n → takeExact n l = none := by
  intro n
  induction n with
  | zero => intro l h; simp at h
  | succ n ih =>
    intro l hl
    cases l with
    | nil => rfl
    | cons x xs =>
      simp only [List.length_cons, Nat.succ_lt_succ_iff] at hl
      simp [takeExact, ih xs hl]

theorem idx?_eq_some {α : Type} :
    ∀ (l : List α) (n : Nat), n < l.length → ∃ a, idx? l n = some a := by
  intro l
  induction l with
  | nil => intro n h; simp at h
  | cons x xs ih =>
    intro n hn
    cases n with
    | zero => exact ⟨x, rfl⟩
    | succ n =>
      simp only [List.length_cons, Nat.succ_lt_succ_iff] at hn
      exact ih n hn

theorem optMap_eq_some {α β : Type} (f : α → Option β) (g : α → β) :
    ∀ (l : List α), (∀ x ∈ l, f x = some (g x)) → optMap f l = some (l.map g) := by
  intro l
  induction l with
  | nil => intro _; rfl
  | cons x xs ih =>
    intro h
    have hx : f x = some (g x) := h x (List.mem_cons_self x xs)
    have hxs := ih fun y hy => h y (List.mem_cons_of_mem x hy)
    simp [optMap, hx, hxs]

theorem decimateChunks_eq {α : Type} (C : Nat) :
    ∀ (L : List (List α)), (∀ c ∈ L, C ≤ c.length) →
      decimateChunks C L = some ((L.map (fun c => c.take C)).flatten) := by
  intro L
  induction L with
  | nil => intro _; rfl
  | cons c rest ih =>
    intro h
    have hc : takeExact C c = some (c.take C) :=
      takeExact_eq C c (h c (List.mem_cons_self c rest))
    have hrest := ih fun d hd => h d (List.mem_cons_of_mem c hd)
    simp [decimateChunks, hc, hrest]

theorem flatten_length_const {α : Type} {C : Nat} :
    ∀ (L : List (List α)), (∀ c ∈ L, c.length = C) →
      L.flatten.length = L.length * C := by
  intro L
  induction L with
  | nil => intro _; simp
  | cons c rest ih =>
    intro h
    have hc : c.length = C := h c (List.mem_cons_self c rest)
    have hrest := ih fun d hd => h d (List.mem_cons_of_mem c hd)
    simp only [List.flatten_cons, List.length_append, hc, hrest,
      List.length_cons, Nat.succ_mul]
    omega

/-- With a previous frame in hand, the doubling loop emits, for each
consecutive pair of frames, the interpolated frame followed by the second
frame of the pair. -/
theorem doubleChunks_some {α : Type} (interp : α → α → α) :
    ∀ (frames : List (List α)) (p : List α),
      doubleChunks interp (some p) frames
        = (((p :: frames).zip frames).map
            (fun pc => List.zipWith interp pc.1 pc.2 ++ pc.2)).flatten := by
  intro frames
  induction frames with
  | nil => intro p; rfl
  | cons c rest ih =>
    intro p
    show List.zipWith interp p c ++ c ++ doubleChunks interp (some c) rest = _
    rw [ih c]
    simp [List.zip_cons_cons, List.append_assoc]

/-- Spec-side description of the exact-doubling output: the first frame,
then for every consecutive pair of input frames the interpolated frame
followed by the current frame. -/
def doubledSpec {α : Type} (interp : α → α → α) : List (List α) → List α
  | [] => []
  | f :: rest =>
    f ++ (((f :: rest).zip rest).map
      (fun pc => List.zipWith interp pc.1 pc.2 ++ pc.2)).flatten

theorem doubleChunks_eq_spec {α : Type} (interp : α → α → α)
    (frames : List (List α)) :
    doubleChunks interp none frames = doubledSpec interp frames := by
  cases frames with
  | nil => rfl
  | cons f rest =>
    show f ++ doubleChunks interp (some f) rest = _
    rw [doubleChunks_some interp rest f]
    rfl

theorem doubleChunks_dvd {α : Type} (interp : α → α → α) {C : Nat} :
    ∀ (frames : List (List α)) (prev : Option (List α)),
      (∀ f ∈ frames, f.length = C) →
      (∀ p, prev = some p → p.length = C) →
      C ∣ (doubleChunks interp prev frames).length := by
  intro frames
  induction frames with
  | nil => intro prev _ _; cases prev <;> simp [doubleChunks]
  | cons c rest ih =>
    intro prev hf hp
    have hc : c.length = C := hf c (List.mem_cons_self c rest)
    have hrest : ∀ f ∈ rest, f.length = C :=
      fun f hfm => hf f (List.mem_cons_of_mem c hfm)
    have hrec := ih (some c) hrest (fun p hpc => by
      injection hpc with hpc; rw [← hpc]; exact hc)
    cases prev with
    | none =>
      show C ∣ (c ++ doubleChunks interp (some c) rest).length
      simp only [List.length_append, hc]
      exact Nat.dvd_add (dvd_refl C) hrec
    | some p =>
      have hpl : p.length = C := hp p rfl
      show C ∣ (List.zipWith interp p c ++ c
          ++ doubleChunks interp (some c) rest).length
      simp only [List.length_append, List.length_zipWith, hpl, hc,
        Nat.min_self]
      exact Nat.dvd_add (Nat.dvd_add (dvd_refl C) (dvd_refl C)) hrec

theorem pushLoop_dvd {α : Type} (e : List α) (fr : Nat) {C : Nat}
    (hC : C ∣ e.length) :
    ∀ (desired push : Int), C ∣ (pushLoop e fr desired push).1.length := by
  intro desired push
  rw [pushLoop]
  by_cases h : desired - push > 0
  · simp only [h, dite_true]
    have hrec := pushLoop_dvd e fr hC desired (push + (max fr 1 : Nat))
    simp only [List.length_append]
    exact Nat.dvd_add hC hrec
  · simp [h]
termination_by desired push => (desired - push).toNat
decreasing_by omega

theorem upsample_dvd {α : Type} {C : Nat} (fr toR : Nat) :
    ∀ (frames : List (List α)) (desired push : Int),
      (∀ f ∈ frames, f.length = C) →
      C ∣ (upsample fr toR frames desired push).length := by
  intro frames
  induction frames with
  | nil => intro _ _ _; simp [upsample]
  | cons e rest ih =>
    intro desired push hf
    have he : e.length = C := hf e (List.mem_cons_self e rest)
    have hrest : ∀ f ∈ rest, f.length = C :=
      fun f hfm => hf f (List.mem_cons_of_mem e hfm)
    show C ∣ (e ++ (pushLoop e fr (desired + (toR : Int)) (push + (fr : Int))).1
        ++ upsample fr toR rest (desired + (toR : Int))
          (pushLoop e fr (desired + (toR : Int)) (push + (fr : Int))).2).length
    simp only [List.length_append, he]
    refine Nat.dvd_add (Nat.dvd_add (dvd_refl C) ?_) (ih _ _ hrest)
    exact pushLoop_dvd e fr (he ▸ dvd_refl C) _ _

/-- One i16 value survives the I16→U16→I16 round trip. -/
theorem roundtrip_val (x : Int) (h1 : -32768 ≤ x) (h2 : x ≤ 32767) :
    u16_to_i16_val (i16_to_u16_val x) = x := by
  unfold u16_to_i16_val i16_to_u16_val u16wrap i16wrap
  split_ifs <;> omega

/-- C2: Converting any 16-bit signed value to U16 with `to_vec_u16` and back
with `to_vec_i16` yields the original buffer: the I16→U16→I16 round trip is
the identity on every buffer of values in `[-32768, 32767]` (all 65536 i16
values). -/
theorem C2_i16_u16_roundtrip (l : List Int)
    (h : ∀ x ∈ l, -32768 ≤ x ∧ x ≤ 32767) :
    to_vec_i16_of_u16 (to_vec_u16_of_i16 l) = l := by
  unfold to_vec_i16_of_u16 to_vec_u16_of_i16
  rw [List.map_map]
  have hcong : ∀ x ∈ l, (u16_to_i16_val ∘ i16_to_u16_val) x = id x := by
    intro x hx
    have hr := h x hx
    exact roundtrip_val x hr.1 hr.2
  rw [List.map_congr_left hcong, List.map_id]

theorem C2_i16_u16_roundtrip_witness :
    to_vec_i16_of_u16 (to_vec_u16_of_i16 [0, -467, 32767, -32768])
      = [0, -467, 32767, -32768] :=
  C2_i16_u16_roundtrip [0, -467, 32767, -32768] (by decide)

/-- C5: General downsampling (`to < from` with `from % to != 0`) reaches the
final `unimplemented!()` of `convert_samples_rate` and aborts fatally for
every input buffer and channel count; no buffer is ever returned. -/
theorem C5_downsampling_unsupported (α : Type) (interp : α → α → α)
    (input : List α) (fr toR C : Nat) (hlt : toR < fr)
    (hmod : fr % toR ≠ 0) :
    convert_samples_rate interp input fr toR C = none := by
  unfold convert_samples_rate
  rw [if_neg hmod, if_neg (by omega : ¬ toR = fr * 2),
    if_neg (by omega : ¬ fr < toR)]

theorem C5_downsampling_unsupported_witness :
    convert_samples_rate interpolate_u16 [1, 2, 3] 3 2 1 = none :=
  C5_downsampling_unsupported Nat interpolate_u16 [1, 2, 3] 3 2 1
    (by decide) (by decide)

/-- C10: `interpolate` on the unsigned representations adds at native width:
u16 inputs summing past 65535 (and u32 inputs summing past `2^32 - 1`) wrap
(release mode; debug mode panics), so on such frames the exact-doubling path
of `convert_samples_rate` emits a synthetic sample different from the
mathematical average `(a + b) / 2`. -/
theorem C10_interpolate_overflow :
    (40000 + 40000 > 65535
      ∧ interpolate_u16 40000 40000 = 7232
      ∧ interpolate_u16 40000 40000 ≠ (40000 + 40000) / 2)
    ∧ (3221225472 + 3221225472 > 4294967295
      ∧ interpolate_u32 3221225472 3221225472 = 1073741824
      ∧ interpolate_u32 3221225472 3221225472 ≠ (3221225472 + 3221225472) / 2)
    ∧ convert_samples_rate interpolate_u16 [40000, 40000] 1 2 1
        = some [40000, 7232, 40000] := by
  refine ⟨⟨by decide, by decide, by decide⟩,
    ⟨by decide, by decide, by decide⟩, by decide⟩

/-- C4 counterexample: a buffer of length 3 with 2 channels (length not a
multiple of the channel count) fed to the exact-doubling case
`to == from * 2` is NOT aborted: `convert_samples_rate` returns a buffer
(the truncating zip silently handles the short trailing chunk). -/
theorem C4_counterexample :
    ([1, 2, 3] : List Nat).length % 2 ≠ 0
      ∧ convert_samples_rate interpolate_u16 [1, 2, 3] 1 2 2
          = some [1, 2, 2, 3] := by
  exact ⟨by decide, by decide⟩

/-- The decimation loop fails (a chunk indexed past its end) precisely when
some chunk is shorter than the channel count. -/
theorem decimateChunks_none_iff {α : Type} (C : Nat) (L : List (List α)) :
    decimateChunks C L = none ↔ ∃ c ∈ L, c.length < C := by
  induction L with
  | nil => simp [decimateChunks]
  | cons c rest ih =>
    constructor
    · intro hnone
      by_cases hc : c.length < C
      · exact ⟨c, List.mem_cons_self c rest, hc⟩
      · have htE : takeExact C c = some (c.take C) :=
          takeExact_eq C c (by omega)
        cases hrec : decimateChunks C rest with
        | none =>
          obtain ⟨d, hd, hdl⟩ := ih.mp hrec
          exact ⟨d, List.mem_cons_of_mem c hd, hdl⟩
        | some r =>
          have hsome : decimateChunks C (c :: rest) = some (c.take C ++ r) := by
            simp [decimateChunks, htE, hrec]
          rw [hsome] at hnone
          exact Option.noConfusion hnone
    · rintro ⟨d, hd, hdl⟩
      rcases List.mem_cons.mp hd with h | h
      · subst h
        have htE : takeExact C d = none := takeExact_none C d hdl
        cases hrec : decimateChunks C rest <;> simp [decimateChunks, htE, hrec]
      · have hrec : decimateChunks C rest = none := ih.mpr ⟨d, h, hdl⟩
        cases htE : takeExact C c <;> simp [decimateChunks, htE, hrec]

/-- Every chunk has the full size `m` except possibly a trailing chunk of
size `l.length % m`. -/
theorem chunks_length_mem {α : Type} {m : Nat} {l c : List α} (hm : m ≠ 0)
    (hc : c ∈ chunks m l) : c.length = m ∨ c.length = l.length % m := by
  by_cases hl : l = []
  · subst hl; simp at hc
  · rw [chunks_cons hm l hl] at hc
    rcases List.mem_cons.mp hc with h | h
    · subst h
      simp only [List.length_take]
      by_cases hle : m ≤ l.length
      · left; omega
      · right
        rw [Nat.mod_eq_of_lt (by omega)]
        omega
    · by_cases hle : m ≤ l.length
      · rcases chunks_length_mem hm h with h1 | h1
        · left; exact h1
        · right
          rw [h1, List.length_drop, ← Nat.mod_eq_sub_mod hle]
      · rw [List.drop_eq_nil_of_le (by omega)] at h
        simp at h
termination_by l.length
decreasing_by
  simp only [List.length_drop]
  have : l.length ≠ 0 := fun h => hl (List.eq_nil_of_length_eq_zero h)
  omega

/-- When `l.length % m ≠ 0` there really is a trailing chunk of that
length. -/
theorem chunks_exists_rem {α : Type} {m : Nat} (hm : m ≠ 0) (l : List α)
    (hr : l.length % m ≠ 0) : ∃ c ∈ chunks m l, c.length = l.length % m := by
  have hl : l ≠ [] := by
    intro h
    subst h
    simp at hr
  rw [chunks_cons hm l hl]
  by_cases hlt : l.length < m
  · refine ⟨l.take m, List.mem_cons_self _ _, ?_⟩
    simp only [List.length_take]
    rw [Nat.mod_eq_of_lt hlt]
    omega
  · push_neg at hlt
    have hne : (l.drop m).length % m ≠ 0 := by
      simp only [List.length_drop]
      rw [← Nat.mod_eq_sub_mod hlt]
      exact hr
    obtain ⟨c, hc, hcl⟩ := chunks_exists_rem hm (l.drop m) hne
    refine ⟨c, List.mem_cons_of_mem _ hc, ?_⟩
    rw [hcl]
    simp only [List.length_drop]
    exact (Nat.mod_eq_sub_mod hlt).symm
termination_by l.length
decreasing_by
  simp only [List.length_drop]
  have : l.length ≠ 0 := fun h => hl (List.eq_nil_of_length_eq_zero h)
  omega

/-- C4 amended: `convert_samples_rate` does not validate that the buffer
length is a multiple of the channel count.  The exact-doubling path
`to == from * 2` returns a result for every input buffer (the zip truncates
at a short trailing chunk); the decimation path `from % to == 0` aborts
exactly when the trailing partial chunk is shorter than the channel count —
`0 < len % (C * (from / to)) < C` — and returns a result otherwise. -/
theorem C4_amended :
    (∀ (α : Type) (interp : α → α → α) (input : List α) (fr C : Nat),
      fr ≠ 0 → C ≠ 0 →
      ∃ out, convert_samples_rate interp input fr (fr * 2) C = some out)
    ∧ (∀ (α : Type) (interp : α → α → α) (input : List α) (fr toR C : Nat),
      fr ≠ 0 → toR ≠ 0 → C ≠ 0 → fr % toR = 0 →
      (convert_samples_rate interp input fr toR C = none ↔
        0 < input.length % (C * (fr / toR))
          ∧ input.length % (C * (fr / toR)) < C)) := by
  constructor
  · intro α interp input fr C hfr hC
    refine ⟨doubleChunks interp none (chunks C input), ?_⟩
    unfold convert_samples_rate
    rw [if_neg (by
      rw [Nat.mod_eq_of_lt (by omega : fr < fr * 2)]
      exact hfr)]
    rw [if_pos rfl, if_neg hC]
  · intro α interp input fr toR C hfr htoR hC hmod
    have hdv : toR ∣ fr := Nat.dvd_of_mod_eq_zero hmod
    have hk : fr / toR ≠ 0 := fun h0 => hfr (by
      rw [← Nat.div_mul_cancel hdv, h0, Nat.zero_mul])
    have hCk : C * (fr / toR) ≠ 0 := Nat.mul_ne_zero hC hk
    have hCle : C ≤ C * (fr / toR) := by
      calc C = C * 1 := (Nat.mul_one C).symm
        _ ≤ C * (fr / toR) :=
          Nat.mul_le_mul_left C (Nat.pos_of_ne_zero hk)
    unfold convert_samples_rate
    rw [if_pos hmod, if_neg hCk]
    rw [decimateChunks_none_iff C (chunks (C * (fr / toR)) input)]
    constructor
    · rintro ⟨c, hc, hlt⟩
      rcases chunks_length_mem hCk hc with h1 | h1
      · omega
      · have hpos : 0 < c.length :=
          List.length_pos.mpr (chunks_ne_nil hCk hc)
        constructor <;> omega
    · rintro ⟨h0, hC'⟩
      obtain ⟨c, hc, hcl⟩ :=
        chunks_exists_rem hCk input (by omega)
      exact ⟨c, hc, by omega⟩

theorem C4_amended_witness :
    (∃ out, convert_samples_rate interpolate_u16 [7, 8, 9] 3 (3 * 2) 2
      = some out)
    ∧ (convert_samples_rate interpolate_u16 [1, 2, 3] 1 1 2 = none ↔
        0 < ([1, 2, 3] : List Nat).length % (2 * (1 / 1))
          ∧ ([1, 2, 3] : List Nat).length % (2 * (1 / 1)) < 2) :=
  ⟨C4_amended.1 Nat interpolate_u16 [7, 8, 9] 3 2 (by decide) (by decide),
   C4_amended.2 Nat interpolate_u16 [1, 2, 3] 1 1 2
     (by decide) (by decide) (by decide) (by decide)⟩

/-- C3: With `to == from * 2` (whence `from % to != 0` for positive rates),
`convert_samples_rate` on a buffer whose length is a positive multiple of
the channel count emits the first frame once with nothing before it, then
every further frame preceded by the synthetic frame of channelwise
`interpolate` values of the previous and current frame, producing
`2N - 1` frames from `N`; the interpolation is the representation's own
`(a + b) / 2` (e.g. wrapping u16 addition with truncating division in the
concrete instance). -/
theorem C3_exact_doubling :
    (∀ (α : Type) (interp : α → α → α) (input : List α) (C fr : Nat),
      C ≠ 0 → fr ≠ 0 → C ∣ input.length → input ≠ [] →
      convert_samples_rate interp input fr (fr * 2) C
          = some (doubledSpec interp (chunks C input))
        ∧ (doubledSpec interp (chunks C input)).length
            = (2 * (input.length / C) - 1) * C)
    ∧ convert_samples_rate interpolate_u16 [2, 16, 4, 18, 6, 20, 8, 22]
        22050 44100 2
        = some [2, 16, 3, 17, 4, 18, 5, 19, 6, 20, 7, 21, 8, 22] := by
  constructor
  · intro α interp input C fr hC hfr hdvd hne
    constructor
    · unfold convert_samples_rate
      rw [if_neg (by
        rw [Nat.mod_eq_of_lt (by omega : fr < fr * 2)]
        exact hfr)]
      rw [if_pos rfl, if_neg hC, doubleChunks_eq_spec]
    · have hfull : ∀ f ∈ chunks C input, f.length = C :=
        fun f hf => chunks_full hC hdvd hf
      have hcount : (chunks C input).length = input.length / C :=
        chunks_count hC input hdvd
      obtain ⟨f, rest, hch⟩ : ∃ f rest, chunks C input = f :: rest := by
        rw [chunks_cons hC input hne]
        exact ⟨_, _, rfl⟩
      rw [hch] at hfull hcount ⊢
      have hf : f.length = C := hfull f (List.mem_cons_self f rest)
      have hpairs : ∀ c ∈ ((f :: rest).zip rest).map
          (fun pc => List.zipWith interp pc.1 pc.2 ++ pc.2),
          c.length = 2 * C := by
        intro c hc
        obtain ⟨pc, hpc, hceq⟩ := List.mem_map.mp hc
        obtain ⟨hm1, hm2⟩ := List.of_mem_zip hpc
        have hl1 : pc.1.length = C := hfull pc.1 hm1
        have hl2 : pc.2.length = C := hfull pc.2 (List.mem_cons_of_mem f hm2)
        rw [← hceq]
        simp only [List.length_append, List.length_zipWith, hl1, hl2,
          Nat.min_self]
        omega
      show (f ++ (((f :: rest).zip rest).map
          (fun pc => List.zipWith interp pc.1 pc.2 ++ pc.2)).flatten).length
          = _
      rw [List.length_append, flatten_length_const _ hpairs,
        List.length_map, List.length_zip, hf, ← hcount]
      rw [List.length_cons, Nat.min_eq_right (by omega)]
      have h21 : 2 * (rest.length + 1) - 1 = 2 * rest.length + 1 := by omega
      rw [h21]
      ring
  · decide

theorem C3_exact_doubling_witness :
    convert_samples_rate interpolate_u16 [2, 16, 4, 18] 1 (1 * 2) 2
        = some (doubledSpec interpolate_u16 (chunks 2 [2, 16, 4, 18]))
      ∧ (doubledSpec interpolate_u16 (chunks 2 [2, 16, 4, 18])).length
          = (2 * (([2, 16, 4, 18] : List Nat).length / 2) - 1) * 2 :=
  C3_exact_doubling.1 Nat interpolate_u16 [2, 16, 4, 18] 2 1
    (by decide) (by decide) (by decide) (by decide)

/-- C8: With `from % to == 0` and `k = from / to`, `convert_samples_rate`
emits exactly the first frame of each consecutive group of `k` input frames
(`g.headD []` over the groups of frames), unchanged and in order; this
branch is tested first, and on the spec's example buffer it keeps every
other frame. -/
theorem C8_integer_decimation :
    (∀ (α : Type) (interp : α → α → α) (input : List α) (C fr toR : Nat),
      C ≠ 0 → fr ≠ 0 → toR ≠ 0 → C ∣ input.length → fr % toR = 0 →
      convert_samples_rate interp input fr toR C
        = some (((chunks (fr / toR) (chunks C input)).map
            (fun g => g.headD [])).flatten))
    ∧ convert_samples_rate interpolate_u16 [1, 16, 2, 17, 3, 18, 4, 19]
        44100 22050 2 = some [1, 16, 3, 18] := by
  constructor
  · intro α interp input C fr toR hC hfr htoR hdvd hmod
    have hdv : toR ∣ fr := Nat.dvd_of_mod_eq_zero hmod
    have hk : fr / toR ≠ 0 := fun h0 => hfr (by
      rw [← Nat.div_mul_cancel hdv, h0, Nat.zero_mul])
    have hCk : C * (fr / toR) ≠ 0 := Nat.mul_ne_zero hC hk
    unfold convert_samples_rate
    rw [if_pos hmod, if_neg hCk]
    have hle : ∀ c ∈ chunks (C * (fr / toR)) input, C ≤ c.length := by
      intro c hc
      have h1 : C ∣ c.length :=
        chunks_dvd hCk (dvd_mul_right C (fr / toR)) hdvd hc
      have h2 : 0 < c.length := List.length_pos.mpr (chunks_ne_nil hCk hc)
      exact Nat.le_of_dvd h2 h1
    rw [decimateChunks_eq C _ hle]
    congr 1
    rw [chunks_mul hC hk input, List.map_map]
    congr 1
    apply List.map_congr_left
    intro g hg
    have hgne : g ≠ [] := chunks_ne_nil hk hg
    cases g with
    | nil => exact absurd rfl hgne
    | cons f grest =>
      have hfC : f.length = C :=
        chunks_full hC hdvd
          (chunks_subset hk hg f (List.mem_cons_self f grest))
      show ((f :: grest).flatten).take C = f
      rw [List.flatten_cons, ← hfC, List.take_left]
  · decide

theorem C8_integer_decimation_witness :
    convert_samples_rate interpolate_u16 [1, 16, 2, 17, 3, 18, 4, 19]
        44100 22050 2
      = some (((chunks (44100 / 22050)
          (chunks 2 [1, 16, 2, 17, 3, 18, 4, 19])).map
            (fun g => g.headD [])).flatten) :=
  C8_integer_decimation.1 Nat interpolate_u16 [1, 16, 2, 17, 3, 18, 4, 19]
    2 44100 22050 (by decide) (by decide) (by decide) (by decide) (by decide)

/-- C9: For every buffer whose length is a multiple of the (positive)
channel count and every positive rate pair on which `convert_samples_rate`
returns a buffer, the returned buffer's length is again a multiple of the
channel count. -/
theorem C9_output_length_multiple (α : Type) (interp : α → α → α)
    (input : List α) (fr toR C : Nat) (out : List α)
    (hC : C ≠ 0) (hfr : fr ≠ 0) (htoR : toR ≠ 0) (hdvd : C ∣ input.length)
    (hout : convert_samples_rate interp input fr toR C = some out) :
    C ∣ out.length := by
  unfold convert_samples_rate at hout
  by_cases h1 : fr % toR = 0
  · rw [if_pos h1] at hout
    have hdv : toR ∣ fr := Nat.dvd_of_mod_eq_zero h1
    have hk : fr / toR ≠ 0 := fun h0 => hfr (by
      rw [← Nat.div_mul_cancel hdv, h0, Nat.zero_mul])
    have hCk : C * (fr / toR) ≠ 0 := Nat.mul_ne_zero hC hk
    rw [if_neg hCk] at hout
    have hle : ∀ c ∈ chunks (C * (fr / toR)) input, C ≤ c.length := by
      intro c hc
      have hd1 : C ∣ c.length :=
        chunks_dvd hCk (dvd_mul_right C (fr / toR)) hdvd hc
      have hd2 : 0 < c.length := List.length_pos.mpr (chunks_ne_nil hCk hc)
      exact Nat.le_of_dvd hd2 hd1
    rw [decimateChunks_eq C _ hle] at hout
    injection hout with hout
    rw [← hout]
    have hlen : ∀ c ∈ (chunks (C * (fr / toR)) input).map
        (fun c => c.take C), c.length = C := by
      intro c hc
      obtain ⟨c0, hc0, hceq⟩ := List.mem_map.mp hc
      have := hle c0 hc0
      rw [← hceq]
      simp only [List.length_take]
      omega
    rw [flatten_length_const _ hlen]
    exact dvd_mul_left C _
  · rw [if_neg h1] at hout
    by_cases h2 : toR = fr * 2
    · rw [if_pos h2, if_neg hC] at hout
      injection hout with hout
      rw [← hout]
      exact doubleChunks_dvd interp (chunks C input) none
        (fun f hf => chunks_full hC hdvd hf)
        (fun p hp => by simp at hp)
    · rw [if_neg h2] at hout
      by_cases h3 : fr < toR
      · rw [if_pos h3, if_neg hC] at hout
        injection hout with hout
        rw [← hout]
        exact upsample_dvd fr toR (chunks C input) 0 0
          (fun f hf => chunks_full hC hdvd hf)
      · rw [if_neg h3] at hout
        exact absurd hout (by simp)

theorem C9_output_length_multiple_witness :
    (2 : Nat) ∣ ([1, 16] : List Nat).length :=
  C9_output_length_multiple Nat interpolate_u16 [1, 16, 2, 17] 2 1 2 [1, 16]
    (by decide) (by decide) (by decide) (by decide) (by decide)

theorem idx?_getD {α : Type} (l : List α) (n : Nat) (d : α)
    (h : n < l.length) : idx? l n = some ((idx? l n).getD d) := by
  obtain ⟨a, ha⟩ := idx?_eq_some l n h
  rw [ha]
  rfl

/-- C6: When raising the channel count, each output frame is the source
frame followed by `to - from` extra channels, extra `i` carrying the source
frame's value at index `i % from`; in particular the two doubling/tripling
examples of the spec hold. -/
theorem C6_add_channels :
    (∀ (α : Type) (d : α) (input : List α) (fr toR : Nat),
      fr ≠ 0 → input ≠ [] → input.length % fr = 0 → fr < toR →
      convert_channels input fr toR
        = some (((chunks fr input).map (fun f =>
            f ++ (List.range (toR - fr)).map
              (fun i => (idx? f (i % fr)).getD d))).flatten))
    ∧ convert_channels [1, 2, 1, 2] 2 4 = some [1, 2, 1, 2, 1, 2, 1, 2]
    ∧ convert_channels [1, 2, 1, 2] 2 3 = some [1, 2, 1, 1, 2, 1] := by
  refine ⟨?_, by decide, by decide⟩
  intro α d input fr toR hfr hne hmod hlt
  have hdvd : fr ∣ input.length := Nat.dvd_of_mod_eq_zero hmod
  have htoR : toR ≠ 0 := by omega
  unfold convert_channels
  rw [if_neg hfr, if_neg htoR, if_neg (fun hcon => hcon hmod)]
  have hframe : ∀ f ∈ chunks fr input,
      channelsFrame fr toR f
        = some (f ++ (List.range (toR - fr)).map
            (fun i => (idx? f (i % fr)).getD d)) := by
    intro f hf
    have hflen : f.length = fr := chunks_full hfr hdvd hf
    unfold channelsFrame
    rw [Nat.min_eq_left (Nat.le_of_lt hlt),
      takeExact_eq fr f (by omega), Option.some_bind, if_pos hlt]
    have hopt : optMap (fun i => idx? f (i % f.length))
        (List.range (toR - fr))
        = some ((List.range (toR - fr)).map
            (fun i => (idx? f (i % fr)).getD d)) := by
      apply optMap_eq_some
      intro i _
      rw [hflen]
      exact idx?_getD f (i % fr) d (by
        rw [hflen]
        exact Nat.mod_lt i (Nat.pos_of_ne_zero hfr))
    rw [hopt, Option.some_bind, ← hflen, List.take_length]
  rw [optMap_eq_some (channelsFrame fr toR) _ (chunks fr input) hframe,
    Option.map_some']

theorem C6_add_channels_witness :
    convert_channels [1, 2, 1, 2] 2 4
      = some (((chunks 2 ([1, 2, 1, 2] : List Nat)).map (fun f =>
          f ++ (List.range (4 - 2)).map
            (fun i => (idx? f (i % 2)).getD 0))).flatten) :=
  C6_add_channels.1 Nat 0 [1, 2, 1, 2] 2 4
    (by decide) (by decide) (by decide) (by decide)

theorem optMap_exists {α β : Type} (f : α → Option β) (P : β → Prop) :
    ∀ l : List α, (∀ x ∈ l, ∃ y, f x = some y ∧ P y) →
      ∃ ys, optMap f l = some ys ∧ ys.length = l.length ∧ ∀ y ∈ ys, P y := by
  intro l
  induction l with
  | nil => intro _; exact ⟨[], rfl, rfl, by simp⟩
  | cons x xs ih =>
    intro h
    obtain ⟨y, hy, hPy⟩ := h x (List.mem_cons_self x xs)
    obtain ⟨ys, hys, hlen, hall⟩ :=
      ih fun z hz => h z (List.mem_cons_of_mem x hz)
    refine ⟨y :: ys, ?_, by simp [hlen], ?_⟩
    · simp [optMap, hy, hys]
    · intro z hz
      rcases List.mem_cons.mp hz with hz | hz
      · rw [hz]; exact hPy
      · exact hall z hz

/-- A full frame is processed by `channelsFrame` without failure, and the
output frame has exactly `toR` samples. -/
theorem channelsFrame_length {α : Type} (fr toR : Nat) (f : List α)
    (hflen : f.length = fr) (hfr : fr ≠ 0) :
    ∃ out, channelsFrame fr toR f = some out ∧ out.length = toR := by
  cases f with
  | nil => exact absurd hflen.symm hfr
  | cons x f' =>
    unfold channelsFrame
    rw [takeExact_eq (min fr toR) (x :: f') (by
      rw [hflen]
      exact Nat.min_le_left fr toR), Option.some_bind]
    by_cases hlt : fr < toR
    · rw [if_pos hlt]
      have hopt : optMap (fun i => idx? (x :: f') (i % (x :: f').length))
          (List.range (toR - fr))
          = some ((List.range (toR - fr)).map
              (fun i => (idx? (x :: f') (i % fr)).getD x)) := by
        apply optMap_eq_some
        intro i _
        rw [hflen]
        exact idx?_getD (x :: f') (i % fr) x (by
          rw [hflen]
          exact Nat.mod_lt i (Nat.pos_of_ne_zero hfr))
      rw [hopt, Option.some_bind]
      refine ⟨_, rfl, ?_⟩
      simp only [List.length_append, List.length_take, List.length_map,
        List.length_range, hflen]
      omega
    · rw [if_neg hlt]
      refine ⟨_, rfl, ?_⟩
      simp only [List.length_take, hflen]
      omega

/-- C7: `convert_channels` aborts (assertion failure) exactly when
`from == 0`, `to == 0`, or the input length is not a multiple of `from`;
on every input satisfying the three preconditions it returns a buffer of
length `(input.length / from) * to`. -/
theorem C7_channels_assertions (α : Type) (input : List α) (fr toR : Nat) :
    (convert_channels input fr toR = none
        ↔ fr = 0 ∨ toR = 0 ∨ input.length % fr ≠ 0)
    ∧ (fr ≠ 0 → toR ≠ 0 → input.length % fr = 0 →
        ∃ r, convert_channels input fr toR = some r
          ∧ r.length = input.length / fr * toR) := by
  have hpos : fr ≠ 0 → toR ≠ 0 → input.length % fr = 0 →
      ∃ r, convert_channels input fr toR = some r
        ∧ r.length = input.length / fr * toR := by
    intro hfr htoR hmod
    have hdvd : fr ∣ input.length := Nat.dvd_of_mod_eq_zero hmod
    obtain ⟨ys, hys, hlen, hall⟩ :=
      optMap_exists (channelsFrame fr toR) (fun y => y.length = toR)
        (chunks fr input)
        (fun f hf =>
          channelsFrame_length fr toR f (chunks_full hfr hdvd hf) hfr)
    refine ⟨ys.flatten, ?_, ?_⟩
    · unfold convert_channels
      rw [if_neg hfr, if_neg htoR, if_neg (fun hcon => hcon hmod), hys,
        Option.map_some']
    · rw [flatten_length_const ys hall, hlen,
        chunks_count hfr input hdvd]
  constructor
  · constructor
    · intro hnone
      by_contra hcon
      push_neg at hcon
      obtain ⟨h1, h2, h3⟩ := hcon
      obtain ⟨r, hr, _⟩ := hpos h1 h2 h3
      rw [hr] at hnone
      exact Option.noConfusion hnone
    · intro h
      unfold convert_channels
      split_ifs with hA hB hC'
      · rfl
      · rfl
      · rfl
      · rcases h with h | h | h
        · exact absurd h hA
        · exact absurd h hB
        · exact absurd h hC'
  · exact hpos

theorem C7_channels_assertions_witness :
    ∃ r, convert_channels ([1, 2, 3, 4] : List Nat) 2 3 = some r
      ∧ r.length = ([1, 2, 3, 4] : List Nat).length / 2 * 3 :=
  (C7_channels_assertions Nat [1, 2, 3, 4] 2 3).2
    (by decide) (by decide) (by decide)

/-- C1 counterexample: at the sample value `1.0` (where f32 arithmetic is
exact) the source's F32→U24 conversion yields `0xFFFFFF = 16777215`
(24-bit scaling by `8388607.0`), while the claimed rule — the F32→I16
scaling by `32767.0` followed by adding `0x800000` — yields `8421375`. -/
theorem C1_f32_u24_counterexample :
    to_vec_u24_of_f32 [1] = [16777215]
      ∧ f32_to_u24_claimed 1 = 8421375
      ∧ (f32_to_u24_val 1 : Int) ≠ f32_to_u24_claimed 1 := by
  have hval : f32_to_u24_val 1 = 16777215 := by
    unfold f32_to_u24_val u32cast ratTrunc
    rw [if_pos (by norm_num : (0 : ℚ) ≤ 1)]
    rw [if_neg (by norm_num : ¬ ((1 : ℚ) * 8388607 < 0))]
    rw [(by norm_num : Int.floor ((1 : ℚ) * 8388607) = 8388607)]
    decide
  have hclaim : f32_to_u24_claimed 1 = 8421375 := by
    unfold f32_to_u24_claimed ratTrunc
    rw [if_pos (by norm_num : (0 : ℚ) ≤ 1)]
    rw [if_neg (by norm_num : ¬ ((1 : ℚ) * 32767 < 0))]
    rw [(by norm_num : Int.floor ((1 : ℚ) * 32767) = 32767)]
    decide
  refine ⟨?_, hclaim, ?_⟩
  · show [f32_to_u24_val 1] = [16777215]
    rw [hval]
  · rw [hval, hclaim]
    decide

/-- C1 amended: the F32→U24 conversion scales by the 24-bit constants, not
the 16-bit F32→I16 constants: for `0 <= v <= 1` it yields
`round-toward-zero(v * 8388607.0) + 0x800000`; for `-1 <= v < 0` it
multiplies by `8388608.0` but casts the negative product to u32 before the
offset is added, so (saturating cast) every negative sample maps to
`0x800000`. -/
theorem C1_f32_u24_amended (v : ℚ) (h1 : -1 ≤ v) (h2 : v ≤ 1) :
    f32_to_u24_val v
      = if 0 ≤ v then (Int.floor (v * 8388607) + 8388608).toNat
        else 8388608 := by
  unfold f32_to_u24_val u32cast ratTrunc
  by_cases h0 : 0 ≤ v
  · rw [if_pos h0, if_pos h0]
    have hx0 : 0 ≤ v * 8388607 := mul_nonneg h0 (by norm_num)
    rw [if_neg (not_lt.mpr hx0)]
    have hfl0 : 0 ≤ Int.floor (v * 8388607) := Int.floor_nonneg.mpr hx0
    have hfl1 : Int.floor (v * 8388607) ≤ 8388607 := by
      have hle : v * 8388607 ≤ 8388607 := by nlinarith
      calc Int.floor (v * 8388607)
          ≤ Int.floor ((8388607 : ℚ)) := Int.floor_le_floor hle
        _ = 8388607 := by norm_num
    omega
  · rw [if_neg h0, if_neg h0]
    have hv : v < 0 := not_le.mp h0
    have hx : v * 8388608 < 0 := by nlinarith
    rw [if_pos hx]
    have hfl : 0 ≤ Int.floor (-(v * 8388608)) :=
      Int.floor_nonneg.mpr (by linarith)
    omega

theorem C1_f32_u24_amended_witness :
    f32_to_u24_val (-1 / 2) = 8388608 := by
  rw [C1_f32_u24_amended (-1 / 2) (by norm_num) (by norm_num)]
  rw [if_neg (by norm_num : ¬ ((0 : ℚ) ≤ -1 / 2))]

end Cpal
